import Mathlib

/-!
# Verification of the `helpfultests` repository

Shallow embedding, in Lean 4, of the core logic of the `helpfultests`
Python package:

* the style-marker codec (`__bold`, `__underline`, `__strikethrough` in
  `_testcase_assert_add.py` and `__styling` / `__convert_to_html` in
  `__main__.py`),
* the captured I/O session and input checks (`__check_input`),
* the diff engine (`__diff_line`, `__diff_lines`, built on Python's
  `difflib.SequenceMatcher`),
* the output comparator (`__check_output`),
* the assertion-enrichment layer (`_testcase_assert_mod.py`).

Python strings are modelled as `List Char`; machine-level details
(file handles, frames) are abstracted, but every translated function
mirrors the control flow of its Python source line by line.
-/

namespace HelpfulTests

/-! ## Basic character helpers

`isPySpace` covers the ASCII whitespace characters recognised by Python's
`str.rstrip()` / `str.split()`; all texts handled by the claims are ASCII
plus the three reserved marker characters, none of which is whitespace.
-/

def isPySpace (c : Char) : Bool :=
  c = ' ' ∨ c = '\t' ∨ c = '\n' ∨ c = '\x0b' ∨ c = '\x0c' ∨ c = '\r'

/-- Python `s.rstrip()`: drop trailing whitespace. -/
def rstripWs (l : List Char) : List Char :=
  (l.reverse.dropWhile isPySpace).reverse

/-- Python `s.rstrip('\n')`: drop trailing newline characters. -/
def rstripNl (l : List Char) : List Char :=
  (l.reverse.dropWhile (· = '\n')).reverse

/-- Python `s.split('\n')`: always returns a non-empty list of lines. -/
def splitNl : List Char → List (List Char)
  | [] => [[]]
  | c :: rest =>
    if c = '\n' then [] :: splitNl rest
    else (c :: (splitNl rest).headD []) :: (splitNl rest).tail

/-- Python `'\n'.join(ls)`. -/
def joinNl : List (List Char) → List Char
  | [] => []
  | [x] => x
  | x :: y :: ys => x ++ '\n' :: joinNl (y :: ys)

theorem splitNl_ne_nil (l : List Char) : splitNl l ≠ [] := by
  cases l with
  | nil => simp [splitNl]
  | cons c rest =>
    rw [splitNl]
    split <;> simp

/-! ## Captured I/O Session (`__check_input`, lines 88–134)

The function under test is abstracted as a trace of I/O actions: it can
read the rest of stdin (`read`), read one line (`readline`), read one
line through the `input()` builtin (`inputline`, which raises `EOFError`
when the line comes back empty), or write to stdout (`write`).

`__check_input` wraps `read`/`readline` of the simulated stdin so that
each call records `(len(out.getvalue()), len(data))` into `inpt_ranges`
and echoes the data into the output; this is `consume` below.
-/

inductive Action where
  | read : Action
  | readline : Action
  | inputline : Action
  | write : List Char → Action
deriving DecidableEq, Repr

structure Session where
  inp : List Char
  pos : Nat
  out : List Char
  ranges : List (Nat × Nat)
  /-- The data actually returned by each wrapped read/readline call,
  in call order (used to state the range-length invariant). -/
  reads : List (List Char)
deriving DecidableEq, Repr

def Session.init (inp : List Char) : Session :=
  { inp := inp, pos := 0, out := [], ranges := [], reads := [] }

/-- `io.StringIO.readline` from the current position: everything up to and
including the next `'\n'` (or up to the end of the buffer). -/
def takeLine : List Char → List Char
  | [] => []
  | c :: rest => if c = '\n' then [c] else c :: takeLine rest

/-- The wrapped `read`/`readline` body: record
`(len(out.getvalue()), len(data))`, echo `data` into the output, and
advance the input position. -/
def consume (s : Session) (data : List Char) : Session :=
  { s with
    ranges := s.ranges ++ [(s.out.length, data.length)]
    out := s.out ++ data
    pos := s.pos + data.length
    reads := s.reads ++ [data] }

/-- Run the trace of the function under test inside the session.  The
returned flag is `true` when the run aborted with `EOFError` (an
`input()` call whose wrapped `readline` returned no data). -/
def runActs : List Action → Session → Session × Bool
  | [], s => (s, false)
  | .write t :: rest, s => runActs rest { s with out := s.out ++ t }
  | .read :: rest, s => runActs rest (consume s (s.inp.drop s.pos))
  | .readline :: rest, s => runActs rest (consume s (takeLine (s.inp.drop s.pos)))
  | .inputline :: rest, s =>
    let data := takeLine (s.inp.drop s.pos)
    let s' := consume s data
    if data = [] then (s', true) else runActs rest s'

/-- Python `s.rstrip('\n').split('\n')[-1]` applied to the consumed part of
the input (the hint shown by the leftover-input failure). -/
def lastLine (l : List Char) : List Char :=
  (splitNl (rstripNl l)).getLastD []

/-- Result of `__check_input` (lines 110–134): the three distinct failure
conditions, or success carrying the data handed to the output comparator. -/
inductive InputCheck (α : Type) where
  | eofFailure : InputCheck α
  | noInputFailure : InputCheck α
  | leftoverFailure : List Char → InputCheck α
  | ok : α → List Char → List (Nat × Nat) → InputCheck α
deriving DecidableEq, Repr

/-- `__check_input` after the function call: dispatch on the EOF flag, the
zero-reads check (`in_.tell() == 0`), and the leftover check.  Note that
`rem = in_.read()` in the source goes through the *wrapped* read, so on
the success path it appends one final `(len(out), 0)` range and echoes the
empty string; the model reproduces that. -/
def check_input {α : Type} (inpt : List Char) (acts : List Action) (retval : α) :
    InputCheck α :=
  let r := runActs acts (Session.init inpt)
  if r.2 then .eofFailure
  else if r.1.pos = 0 then .noInputFailure
  else
    let rem := r.1.inp.drop r.1.pos
    let s' := consume r.1 rem
    if rem ≠ [] then
      .leftoverFailure (lastLine (inpt.take (inpt.length - rem.length)))
    else
      .ok retval (rstripWs s'.out) s'.ranges

/-! ### Session invariants -/

theorem takeLine_length_le (l : List Char) : (takeLine l).length ≤ l.length := by
  induction l with
  | nil => simp [takeLine]
  | cons c rest ih =>
    rw [takeLine]
    split
    · simp
    · simpa using ih

/-- Invariant carried through a session run: ranges are chained
(non-overlapping, offsets non-decreasing), each range ends within the
current output, recorded lengths match the returned data, and the input
position stays within the input. -/
def SessionInv (s : Session) : Prop :=
  s.ranges.Pairwise (fun a b => a.1 + a.2 ≤ b.1) ∧
  (∀ r ∈ s.ranges, r.1 + r.2 ≤ s.out.length) ∧
  s.ranges.map Prod.snd = s.reads.map List.length ∧
  s.pos ≤ s.inp.length

theorem sessionInv_init (inp : List Char) : SessionInv (Session.init inp) := by
  refine ⟨?_, ?_, ?_, ?_⟩ <;> simp [Session.init]

theorem sessionInv_consume (s : Session) (data : List Char) (h : SessionInv s)
    (hd : s.pos + data.length ≤ s.inp.length) : SessionInv (consume s data) := by
  obtain ⟨h1, h2, h3, h4⟩ := h
  refine ⟨?_, ?_, ?_, ?_⟩
  · simp only [consume, List.pairwise_append]
    exact ⟨h1, by simp, by simpa using fun a b hab => h2 (a, b) hab⟩
  · intro r hr
    simp only [consume, List.mem_append, List.mem_singleton] at hr
    rcases hr with hr | hr
    · have := h2 r hr
      simp only [consume, List.length_append]
      omega
    · subst hr
      simp [consume]
  · simp [consume, h3]
  · simpa [consume] using hd

theorem sessionInv_write (s : Session) (t : List Char) (h : SessionInv s) :
    SessionInv { s with out := s.out ++ t } := by
  obtain ⟨h1, h2, h3, h4⟩ := h
  refine ⟨h1, ?_, h3, h4⟩
  intro r hr
  have := h2 r hr
  simp only [List.length_append]
  omega

theorem runActs_inv (acts : List Action) (s : Session) (h : SessionInv s) :
    SessionInv (runActs acts s).1 := by
  induction acts generalizing s with
  | nil => exact h
  | cons a rest ih =>
    cases a with
    | write t => exact ih _ (sessionInv_write s t h)
    | read =>
      refine ih _ (sessionInv_consume s _ h ?_)
      have h4 := h.2.2.2
      simp only [List.length_drop]
      omega
    | readline =>
      refine ih _ (sessionInv_consume s _ h ?_)
      have := takeLine_length_le (s.inp.drop s.pos)
      have h4 := h.2.2.2
      simp only [List.length_drop] at this
      omega
    | inputline =>
      rw [runActs]
      have hc : SessionInv (consume s (takeLine (s.inp.drop s.pos))) := by
        refine sessionInv_consume s _ h ?_
        have := takeLine_length_le (s.inp.drop s.pos)
        have h4 := h.2.2.2
        simp only [List.length_drop] at this
        omega
      split
      · exact hc
      · exact ih _ hc

theorem runActs_inp (acts : List Action) (s : Session) :
    (runActs acts s).1.inp = s.inp := by
  induction acts generalizing s with
  | nil => rfl
  | cons a rest ih =>
    cases a with
    | write t => exact ih _
    | read => exact ih _
    | readline => exact ih _
    | inputline =>
      rw [runActs]
      split
      · rfl
      · exact ih _

/-! ### Claims C2, C3, C7 -/

/-- **C2.** For a captured I/O session whose function under test reads
exactly once via read-line, receiving `"5\n"`, and then writes
`"You entered 5\n"`: the session's captured output is
`"5\nYou entered 5\n"` and its recorded list of input ranges is exactly
`[(0, 2)]`. -/
theorem session_readline_scenario :
    (runActs [.readline, .write "You entered 5\n".toList]
        (Session.init "5\n".toList)).1.out = "5\nYou entered 5\n".toList ∧
    (runActs [.readline, .write "You entered 5\n".toList]
        (Session.init "5\n".toList)).1.ranges = [(0, 2)] := by
  constructor <;> decide

/-- **C3.** Invariant of every captured I/O session: the accumulated input
ranges are pairwise chained (sorted by offset and non-overlapping:
`start₁ + len₁ ≤ start₂` for every earlier/later pair) and each recorded
length equals the length of the data actually returned by the
corresponding read or read-line call. -/
theorem inputRanges_invariant (inp : List Char) (acts : List Action) :
    (runActs acts (Session.init inp)).1.ranges.Pairwise
        (fun a b => a.1 + a.2 ≤ b.1) ∧
    (runActs acts (Session.init inp)).1.ranges.map Prod.snd =
      (runActs acts (Session.init inp)).1.reads.map List.length := by
  have h := runActs_inv acts (Session.init inp) (sessionInv_init inp)
  exact ⟨h.1, h.2.2.1⟩

/-- **C7.** `__check_input` fails with a distinct failure in exactly three
input-related cases — EOF surfaced as its own failure, zero input
consumed, and leftover input (whose failure reports the last consumed
input line as hint) — and otherwise passes the return value and captured
output on to the output comparator. -/
theorem check_input_cases {α : Type} (inpt : List Char) (acts : List Action) (rv : α) :
    (check_input inpt acts rv = .eofFailure ↔
        (runActs acts (Session.init inpt)).2 = true) ∧
    ((runActs acts (Session.init inpt)).2 = false →
      (check_input inpt acts rv = .noInputFailure ↔
        (runActs acts (Session.init inpt)).1.pos = 0)) ∧
    ((runActs acts (Session.init inpt)).2 = false →
      (runActs acts (Session.init inpt)).1.pos ≠ 0 →
      inpt.drop (runActs acts (Session.init inpt)).1.pos ≠ [] →
      check_input inpt acts rv =
        .leftoverFailure
          (lastLine (inpt.take (runActs acts (Session.init inpt)).1.pos))) ∧
    ((runActs acts (Session.init inpt)).2 = false →
      (runActs acts (Session.init inpt)).1.pos ≠ 0 →
      inpt.drop (runActs acts (Session.init inpt)).1.pos = [] →
      check_input inpt acts rv =
        .ok rv (rstripWs (runActs acts (Session.init inpt)).1.out)
          ((runActs acts (Session.init inpt)).1.ranges ++
            [((runActs acts (Session.init inpt)).1.out.length, 0)])) := by
  have hinp : (runActs acts (Session.init inpt)).1.inp = inpt := by
    rw [runActs_inp]
    rfl
  have hpos : (runActs acts (Session.init inpt)).1.pos ≤ inpt.length := by
    have h := (runActs_inv acts (Session.init inpt) (sessionInv_init inpt)).2.2.2
    rwa [hinp] at h
  refine ⟨?_, ?_, ?_, ?_⟩
  · constructor
    · intro h
      by_contra hb
      simp only [Bool.not_eq_true] at hb
      rw [check_input, hb] at h
      simp only [if_false, Bool.false_eq_true] at h
      split at h <;> [skip; split at h] <;> simp_all
    · intro h
      rw [check_input, h]
      simp
  · intro he
    rw [check_input, he]
    simp only [Bool.false_eq_true, if_false]
    split
    · simp_all
    · split <;> simp_all
  · intro he hp hrem
    rw [check_input, he]
    simp only [Bool.false_eq_true, if_false, if_neg hp, hinp]
    rw [if_pos (by simpa using hrem)]
    have hlen : inpt.length - (inpt.drop (runActs acts (Session.init inpt)).1.pos).length
        = (runActs acts (Session.init inpt)).1.pos := by
      simp only [List.length_drop]
      omega
    rw [hlen]
  · intro he hp hrem
    rw [check_input, he]
    simp only [Bool.false_eq_true, if_false, if_neg hp, hinp, hrem]
    simp [consume]

/-- Witness for C7: a concrete run through the success case.  Input
`"5\n"` is fully consumed by a single read-line, so the checks pass and
the (whitespace-right-stripped) output and ranges — including the final
`(2, 0)` range appended by the leftover probe — are handed onward. -/
theorem check_input_cases_witness :
    check_input "5\n".toList [.readline] (0 : Nat)
      = .ok 0 "5".toList [(0, 2), (2, 0)] := by
  have h := (check_input_cases "5\n".toList [.readline] (0 : Nat)).2.2.2
    (by decide) (by decide) (by decide)
  rw [h]
  decide

/-! ## Output Comparator (`__check_output`, lines 197–251)

Only the match/mismatch decision is modelled here (the message building
on mismatch raises in every mismatch case and is not needed by the
claims).  `re.search` is an external collaborator and is passed in as an
oracle `reSearch pattern text`. -/

inductive WsMode where
  | strict | relaxed | ignore
deriving DecidableEq, Repr

/-- The whitespace normalisation applied by `__check_output` to both the
printed and the expected text. -/
def normalizeWs : WsMode → List Char → List Char
  | .relaxed, t => joinNl ((splitNl (rstripNl t)).map rstripWs)
  | .ignore, t => t.filter (fun c => ¬ isPySpace c)
  | .strict, t => t

/-- Python string comparison: lexicographic by code point. -/
def lexLe : List Char → List Char → Bool
  | [], _ => true
  | _ :: _, [] => false
  | a :: as, b :: bs => if a = b then lexLe as bs else decide (a < b)

def insertSorted (x : List Char) : List (List Char) → List (List Char)
  | [] => [x]
  | y :: ys => if lexLe x y then x :: y :: ys else y :: insertSorted x ys

/-- Python `list.sort()` on a list of strings: a stable sort under the
total lexicographic order (so the result is uniquely determined;
insertion sort computes it). -/
def sortLines (ls : List (List Char)) : List (List Char) :=
  ls.foldr insertSorted []

/-- The mismatch decision of `__check_output`: `true` exactly when the
comparison fails (and the source goes on to raise the helpful failure). -/
def check_output_mismatch (reSearch : List Char → List Char → Bool)
    (printed0 expected0 : List Char) (ws : WsMode)
    (ordered regexp : Bool) : Bool :=
  let printed := normalizeWs ws printed0
  let expected := normalizeWs ws expected0
  if ¬ordered ∨ ¬regexp then
    let pl0 := splitNl printed
    let el0 := splitNl expected
    let pl := if ¬ordered then sortLines pl0 else pl0
    let el := if ¬ordered then sortLines el0 else el0
    if ¬regexp then decide (pl ≠ el)
    else (el.zip pl).any fun ep => ! reSearch ep.1 ep.2
  else ! reSearch expected printed

/-! ### Split/join round trip used by the relaxed-mode claim -/

theorem splitNl_no_newline : ∀ (l : List Char), ∀ x ∈ splitNl l, '\n' ∉ x := by
  intro l
  induction l with
  | nil => intro x hx; simp [splitNl] at hx; simp [hx]
  | cons c rest ih =>
    intro x hx
    rw [splitNl] at hx
    rcases hsp : splitNl rest with _ | ⟨l', ls'⟩
    · exact absurd hsp (splitNl_ne_nil rest)
    · rw [hsp] at hx
      by_cases hc : c = '\n'
      · rw [if_pos hc, List.mem_cons] at hx
        rcases hx with hx | hx
        · simp [hx]
        · exact ih x (hsp ▸ hx)
      · rw [if_neg hc] at hx
        simp only [List.headD_cons, List.tail_cons, List.mem_cons] at hx
        rcases hx with hx | hx
        · subst hx
          intro hmem
          rw [List.mem_cons] at hmem
          rcases hmem with hmem | hmem
          · exact hc hmem.symm
          · exact ih l' (hsp ▸ List.mem_cons_self l' ls') hmem
        · exact ih x (hsp ▸ List.mem_cons_of_mem l' hx)

theorem rstripWs_no_newline {x : List Char} (h : '\n' ∉ x) : '\n' ∉ rstripWs x := by
  intro hmem
  apply h
  have hsub : List.Sublist (rstripWs x) x := by
    have h1 : List.Sublist (x.reverse.dropWhile isPySpace) x.reverse :=
      List.dropWhile_sublist _
    simpa [rstripWs] using h1.reverse
  exact hsub.mem hmem

theorem splitNl_append_newline (x r : List Char) (hx : '\n' ∉ x) :
    splitNl (x ++ '\n' :: r) = x :: splitNl r := by
  induction x with
  | nil =>
    rw [List.nil_append, splitNl]
    simp
  | cons c cs ih =>
    have hc : c ≠ '\n' := fun h => hx (h ▸ List.mem_cons_self c cs)
    have hcs : '\n' ∉ cs := fun h => hx (List.mem_cons_of_mem c h)
    rw [List.cons_append, splitNl, ih hcs]
    simp [hc]

theorem splitNl_no_newline_id (x : List Char) (hx : '\n' ∉ x) :
    splitNl x = [x] := by
  induction x with
  | nil => simp [splitNl]
  | cons c cs ih =>
    have hc : c ≠ '\n' := fun h => hx (h ▸ List.mem_cons_self c cs)
    have hcs : '\n' ∉ cs := fun h => hx (List.mem_cons_of_mem c h)
    rw [splitNl, ih hcs]
    simp [hc]

theorem splitNl_joinNl (ls : List (List Char)) (hne : ls ≠ [])
    (h : ∀ x ∈ ls, '\n' ∉ x) : splitNl (joinNl ls) = ls := by
  induction ls with
  | nil => exact absurd rfl hne
  | cons x rest ih =>
    rcases rest with _ | ⟨y, ys⟩
    · show splitNl (joinNl [x]) = [x]
      rw [joinNl]
      exact splitNl_no_newline_id x (h x (List.mem_cons_self x []))
    · have hx : '\n' ∉ x := h x (List.mem_cons_self x _)
      have hrest : ∀ z ∈ y :: ys, '\n' ∉ z := fun z hz =>
        h z (List.mem_cons_of_mem x hz)
      rw [joinNl, splitNl_append_newline x _ hx, ih (by simp) hrest]

/-- The relaxed normalisation, split back into lines, is exactly: strip
the text's trailing newlines, split into lines, strip each line's
trailing whitespace. -/
theorem splitNl_normalizeWs_relaxed (t : List Char) :
    splitNl (normalizeWs .relaxed t) = (splitNl (rstripNl t)).map rstripWs := by
  have hne : (splitNl (rstripNl t)).map rstripWs ≠ [] := by
    intro h
    exact splitNl_ne_nil (rstripNl t) (List.map_eq_nil_iff.mp h)
  refine splitNl_joinNl _ hne ?_
  intro x hx
  rcases List.mem_map.mp hx with ⟨y, hy, rfl⟩
  exact rstripWs_no_newline (splitNl_no_newline _ y hy)

/-! ### Claims C6 and C8 -/

/-- **C6.** In the default relaxed whitespace mode the comparator strips
each line's trailing whitespace and the whole text's trailing newlines
on both sides before comparing line lists; in particular actual
`"Hello\nWorld  \n"` against expected `"Hello\nWorld"` is a match. -/
theorem relaxed_mode_comparator (reSearch : List Char → List Char → Bool) :
    (∀ p e, check_output_mismatch reSearch p e .relaxed true false
        = decide ((splitNl (rstripNl p)).map rstripWs
            ≠ (splitNl (rstripNl e)).map rstripWs)) ∧
    check_output_mismatch reSearch "Hello\nWorld  \n".toList
        "Hello\nWorld".toList .relaxed true false = false := by
  have h1 : ∀ p e, check_output_mismatch reSearch p e .relaxed true false
      = decide ((splitNl (rstripNl p)).map rstripWs
          ≠ (splitNl (rstripNl e)).map rstripWs) := by
    intro p e
    simp [check_output_mismatch, splitNl_normalizeWs_relaxed]
  refine ⟨h1, ?_⟩
  rw [h1]
  decide

/-- **C8.** With `ordered = False` the comparator splits both normalised
texts into lines and sorts each line list independently before comparing;
in particular actual `"3\n1\n2\n"` against expected `"1\n2\n3\n"` in
relaxed mode is a match. -/
theorem unordered_comparator (reSearch : List Char → List Char → Bool) :
    (∀ p e ws, check_output_mismatch reSearch p e ws false false
        = decide (sortLines (splitNl (normalizeWs ws p))
            ≠ sortLines (splitNl (normalizeWs ws e)))) ∧
    check_output_mismatch reSearch "3\n1\n2\n".toList
        "1\n2\n3\n".toList .relaxed false false = false := by
  have h1 : ∀ p e ws, check_output_mismatch reSearch p e ws false false
      = decide (sortLines (splitNl (normalizeWs ws p))
          ≠ sortLines (splitNl (normalizeWs ws e))) := by
    intro p e ws
    simp [check_output_mismatch]
  refine ⟨h1, ?_⟩
  rw [h1]
  decide

/-! ## Style helpers (`__bold`, `__underline`, `__strikethrough`)

`__bold` prefixes every character with the zero-width word joiner
`'⁠'` and maps ASCII letters/digits into the mathematical
sans-serif-bold block; `__underline` / `__strikethrough` prefix every
character with the combining marks `'̳'` / `'̴'`. -/

def wjChar : Char := Char.ofNat 0x2060
def ulChar : Char := Char.ofNat 0x333
def stChar : Char := Char.ofNat 0x334

def boldChar (c : Char) : Char :=
  if 48 ≤ c.toNat ∧ c.toNat ≤ 57 then Char.ofNat (c.toNat + 120812 - 48)
  else if 65 ≤ c.toNat ∧ c.toNat ≤ 90 then Char.ofNat (c.toNat + 120276 - 65)
  else if 97 ≤ c.toNat ∧ c.toNat ≤ 122 then Char.ofNat (c.toNat + 120302 - 97)
  else c

def boldText (s : List Char) : List Char := s.flatMap (fun c => [wjChar, boldChar c])

def underlineText (s : List Char) : List Char := s.flatMap (fun c => [ulChar, c])

def strikeText (s : List Char) : List Char := s.flatMap (fun c => [stChar, c])

/-! ## Text Diff Engine (`__diff_line`, lines 136–164)

`difflib.SequenceMatcher` (an external collaborator, with no junk
heuristic: the inputs here are short lines, far below the autojunk
threshold of 200 characters) is modelled by its documented behaviour:
`find_longest_match` returns, among all maximal matching blocks, the one
starting earliest in `a` and then earliest in `b`; `get_matching_blocks`
recursively splits around it, merges adjacent blocks, and appends the
`(len(a), len(b), 0)` terminator; `ratio()` is `2*M/T`. -/

/-- Python's slice `l[lo:hi]`. -/
def slice (l : List Char) (lo hi : Nat) : List Char := (l.take hi).drop lo

/-- Length of the longest common prefix. -/
def runLen : List Char → List Char → Nat
  | a :: as, b :: bs => if a = b then runLen as bs + 1 else 0
  | _, _ => 0

/-- Length of the matching run of `a[i:ahi]` against `b[j:bhi]`. -/
def kAt (a b : List Char) (ahi bhi i j : Nat) : Nat :=
  runLen (slice a i ahi) (slice b j bhi)

/-- `find_longest_match` (without junk): the row-major scan keeping the
first strictly longer match realises the documented tie-break (maximal
size, then earliest start in `a`, then earliest start in `b`). -/
def findLongestMatch (a b : List Char) (alo ahi blo bhi : Nat) : Nat × Nat × Nat :=
  (List.range' alo (ahi - alo)).foldl (fun best i =>
    (List.range' blo (bhi - blo)).foldl (fun best j =>
      if best.2.2 < kAt a b ahi bhi i j then (i, j, kAt a b ahi bhi i j) else best)
      best)
    (alo, blo, 0)

theorem runLen_le_left (x y : List Char) : runLen x y ≤ x.length := by
  induction x generalizing y with
  | nil => cases y <;> simp [runLen]
  | cons c cs ih =>
    cases y with
    | nil => simp [runLen]
    | cons d ds =>
      rw [runLen]
      split
      · simpa using Nat.succ_le_succ (ih ds)
      · simp

theorem runLen_le_right (x y : List Char) : runLen x y ≤ y.length := by
  induction x generalizing y with
  | nil => cases y <;> simp [runLen]
  | cons c cs ih =>
    cases y with
    | nil => simp [runLen]
    | cons d ds =>
      rw [runLen]
      split
      · simpa using Nat.succ_le_succ (ih ds)
      · simp

theorem kAt_le_left (a b : List Char) (ahi bhi i j : Nat) :
    kAt a b ahi bhi i j ≤ ahi - i := by
  rw [kAt]
  have h := runLen_le_left (slice a i ahi) (slice b j bhi)
  have h2 : (slice a i ahi).length ≤ ahi - i := by
    simp only [slice, List.length_drop, List.length_take]
    omega
  omega

theorem kAt_le_right (a b : List Char) (ahi bhi i j : Nat) :
    kAt a b ahi bhi i j ≤ bhi - j := by
  rw [kAt]
  have h := runLen_le_right (slice a i ahi) (slice b j bhi)
  have h2 : (slice b j bhi).length ≤ bhi - j := by
    simp only [slice, List.length_drop, List.length_take]
    omega
  omega

/-- Boundedness of a candidate triple within the searched ranges. -/
def FlmOk (alo ahi blo bhi : Nat) (r : Nat × Nat × Nat) : Prop :=
  r.2.2 ≠ 0 → alo ≤ r.1 ∧ r.1 + r.2.2 ≤ ahi ∧ blo ≤ r.2.1 ∧ r.2.1 + r.2.2 ≤ bhi

/-- Bounds on the result of `findLongestMatch`, needed for the
termination of the recursive block decomposition. -/
theorem flm_ok (a b : List Char) (alo ahi blo bhi : Nat) :
    FlmOk alo ahi blo bhi (findLongestMatch a b alo ahi blo bhi) := by
  unfold findLongestMatch
  refine @List.foldlRecOn _ _ (FlmOk alo ahi blo bhi) _ _ _ ?_ ?_
  · intro h
    exact absurd rfl h
  · intro best hbest i hi
    refine @List.foldlRecOn _ _ (FlmOk alo ahi blo bhi) _ _ _ hbest ?_
    intro best' hbest' j hj
    unfold FlmOk
    split
    · intro _
      have hi' := List.mem_range'_1.mp hi
      have hj' := List.mem_range'_1.mp hj
      have h1 := kAt_le_left a b ahi bhi i j
      have h2 := kAt_le_right a b ahi bhi i j
      refine ⟨?_, ?_, ?_, ?_⟩ <;> simp <;> omega
    · exact hbest'

/-- The recursive decomposition inside `get_matching_blocks` (the queue
in the source is a stack whose collected results are sorted afterwards;
the recursion produces them directly in sorted order). -/
def matchingBlocksAux (a b : List Char) (alo ahi blo bhi : Nat) :
    List (Nat × Nat × Nat) :=
  if h : (findLongestMatch a b alo ahi blo bhi).2.2 = 0 then []
  else
    have hb := flm_ok a b alo ahi blo bhi h
    matchingBlocksAux a b alo (findLongestMatch a b alo ahi blo bhi).1 blo
        (findLongestMatch a b alo ahi blo bhi).2.1 ++
      findLongestMatch a b alo ahi blo bhi ::
        matchingBlocksAux a b
          ((findLongestMatch a b alo ahi blo bhi).1 +
            (findLongestMatch a b alo ahi blo bhi).2.2) ahi
          ((findLongestMatch a b alo ahi blo bhi).2.1 +
            (findLongestMatch a b alo ahi blo bhi).2.2) bhi
termination_by ahi - alo
decreasing_by
  · obtain ⟨h1, h2, h3, h4⟩ := hb
    omega
  · obtain ⟨h1, h2, h3, h4⟩ := hb
    omega

/-- The adjacent-block merge loop of `get_matching_blocks`. -/
def mergeBlocks : Nat × Nat × Nat → List (Nat × Nat × Nat) → List (Nat × Nat × Nat)
  | acc, [] => if acc.2.2 ≠ 0 then [acc] else []
  | acc, blk :: rest =>
    if acc.1 + acc.2.2 = blk.1 ∧ acc.2.1 + acc.2.2 = blk.2.1 then
      mergeBlocks (acc.1, acc.2.1, acc.2.2 + blk.2.2) rest
    else
      (if acc.2.2 ≠ 0 then [acc] else []) ++ mergeBlocks blk rest

/-- `SequenceMatcher.get_matching_blocks`. -/
def getMatchingBlocks (a b : List Char) : List (Nat × Nat × Nat) :=
  mergeBlocks (0, 0, 0) (matchingBlocksAux a b 0 a.length 0 b.length) ++
    [(a.length, b.length, 0)]

/-- `SequenceMatcher.ratio()`: `2*M/T`, or `1.0` for two empty strings
(modelled over `ℚ`; the float comparison in the source is modelled as the
exact rational comparison). -/
def ratio (a b : List Char) : ℚ :=
  let m := ((getMatchingBlocks a b).map (fun blk => blk.2.2)).sum
  let total := a.length + b.length
  if 0 < total then 2 * (m : ℚ) / (total : ℚ) else 1

inductive DiffTag where
  | equal | delete | insert | replace
deriving DecidableEq, Repr

structure Opcode where
  tag : DiffTag
  i1 : Nat
  i2 : Nat
  j1 : Nat
  j2 : Nat
deriving DecidableEq, Repr

/-- `SequenceMatcher.get_opcodes`, derived from the matching blocks. -/
def opcodesAux : Nat → Nat → List (Nat × Nat × Nat) → List Opcode
  | _, _, [] => []
  | i, j, (ai, bj, size) :: rest =>
    (if i < ai ∧ j < bj then [⟨.replace, i, ai, j, bj⟩]
     else if i < ai then [⟨.delete, i, ai, j, bj⟩]
     else if j < bj then [⟨.insert, i, ai, j, bj⟩]
     else []) ++
    (if size ≠ 0 then [⟨.equal, ai, ai + size, bj, bj + size⟩] else []) ++
    opcodesAux (ai + size) (bj + size) rest

def getOpcodes (a b : List Char) : List Opcode :=
  opcodesAux 0 0 (getMatchingBlocks a b)

/-- Rendering of one opcode in `__diff_line`'s loop. -/
def renderOp (a b : List Char) (out : List Char) (op : Opcode) : List Char :=
  match op.tag with
  | .equal => out ++ slice a op.i1 op.i2
  | .delete => out ++ strikeText (slice a op.i1 op.i2)
  | .insert => out ++ underlineText (slice b op.j1 op.j2)
  | .replace =>
    out ++ strikeText (slice a op.i1 op.i2) ++ underlineText (slice b op.j1 op.j2)

/-- `__diff_line(a, b, limit)`: `None` when the limit is positive and at
least the similarity ratio; otherwise the rendered opcode sequence. -/
def diff_line (a b : List Char) (limit : ℚ) : Option (List Char) :=
  if 0 < limit ∧ ratio a b ≤ limit then none
  else some ((getOpcodes a b).foldl (renderOp a b) [])

/-! ### Claim C4 -/

/-- **C4.** `__diff_line` returns the "not diffable" sentinel `None` iff
the threshold is positive and the similarity ratio is at most the
threshold; with threshold `0` it never returns the sentinel. -/
theorem diff_line_none_iff (a b : List Char) (limit : ℚ) :
    (diff_line a b limit = none ↔ 0 < limit ∧ ratio a b ≤ limit) ∧
    diff_line a b 0 ≠ none := by
  constructor
  · constructor
    · intro h
      by_contra hc
      rw [diff_line, if_neg hc] at h
      exact Option.some_ne_none _ h
    · intro h
      rw [diff_line, if_pos h]
  · intro h
    rw [diff_line] at h
    have hno : ¬(0 < (0 : ℚ) ∧ ratio a b ≤ 0) := by
      rintro ⟨h1, _⟩
      exact lt_irrefl _ h1
    rw [if_neg hno] at h
    exact Option.some_ne_none _ h

/-! ### Claim C5: diffing a string against itself -/

theorem runLen_self (x : List Char) : runLen x x = x.length := by
  induction x with
  | nil => simp [runLen]
  | cons c cs ih => simp [runLen, ih]

theorem slice_zero_len (a : List Char) : slice a 0 a.length = a := by
  simp [slice]

theorem kAt_self_zero (a : List Char) : kAt a a a.length a.length 0 0 = a.length := by
  rw [kAt, slice_zero_len, runLen_self]

theorem inner_fold_frozen (a b : List Char) (ahi bhi i : Nat) (js : List Nat)
    (p q n : Nat) (hn : ∀ j, kAt a b ahi bhi i j ≤ n) :
    js.foldl (fun best j => if best.2.2 < kAt a b ahi bhi i j
        then (i, j, kAt a b ahi bhi i j) else best) (p, q, n) = (p, q, n) := by
  induction js with
  | nil => rfl
  | cons j js ih =>
    rw [List.foldl_cons, if_neg (Nat.not_lt.mpr (hn j))]
    exact ih

theorem outer_fold_frozen (a b : List Char) (ahi bhi : Nat) (js is : List Nat)
    (p q n : Nat) (hn : ∀ i j, kAt a b ahi bhi i j ≤ n) :
    is.foldl (fun best i => js.foldl (fun best j => if best.2.2 < kAt a b ahi bhi i j
        then (i, j, kAt a b ahi bhi i j) else best) best) (p, q, n) = (p, q, n) := by
  induction is with
  | nil => rfl
  | cons i is ih =>
    rw [List.foldl_cons, inner_fold_frozen a b ahi bhi i js p q n (hn i)]
    exact ih

theorem flm_self (a : List Char) (hn : 0 < a.length) :
    findLongestMatch a a 0 a.length 0 a.length = (0, 0, a.length) := by
  have hall : ∀ i j, kAt a a a.length a.length i j ≤ a.length := by
    intro i j
    have := kAt_le_left a a a.length a.length i j
    omega
  obtain ⟨m, hm⟩ : ∃ m, a.length = m + 1 := ⟨a.length - 1, by omega⟩
  have hsplit : List.range' 0 a.length = 0 :: List.range' 1 m := by
    rw [hm, List.range'_succ]
  unfold findLongestMatch
  simp only [Nat.sub_zero, hsplit, List.foldl_cons, kAt_self_zero]
  rw [if_pos (by simpa using hn)]
  rw [inner_fold_frozen a a a.length a.length 0 (List.range' 1 m) 0 0 a.length (hall 0)]
  exact outer_fold_frozen a a a.length a.length (0 :: List.range' 1 m)
    (List.range' 1 m) 0 0 a.length hall

theorem flm_empty_range (a b : List Char) (x y : Nat) :
    findLongestMatch a b x x y y = (x, y, 0) := by
  unfold findLongestMatch
  simp

theorem matchingBlocksAux_empty_range (a b : List Char) (x y : Nat) :
    matchingBlocksAux a b x x y y = [] := by
  rw [matchingBlocksAux]
  simp [flm_empty_range]

theorem matchingBlocksAux_self (a : List Char) (hn : 0 < a.length) :
    matchingBlocksAux a a 0 a.length 0 a.length = [(0, 0, a.length)] := by
  rw [matchingBlocksAux]
  simp only [flm_self a hn]
  rw [dif_neg (by simpa using hn.ne')]
  simp [Nat.zero_add, matchingBlocksAux_empty_range]

theorem getMatchingBlocks_self (a : List Char) (hn : 0 < a.length) :
    getMatchingBlocks a a = [(0, 0, a.length), (a.length, a.length, 0)] := by
  rw [getMatchingBlocks, matchingBlocksAux_self a hn]
  rw [mergeBlocks]
  rw [if_pos (by simp)]
  rw [mergeBlocks]
  rw [if_pos (by simpa using hn.ne')]
  simp

theorem ratio_self (a : List Char) : ratio a a = 1 := by
  rcases a with _ | ⟨c, cs⟩
  · rfl
  · have hn : 0 < (c :: cs).length := by simp
    rw [ratio, getMatchingBlocks_self _ hn]
    simp only [List.map_cons, List.map_nil, List.sum_cons, List.sum_nil]
    rw [if_pos (by omega)]
    have hq : (((c :: cs).length : Nat) : ℚ) ≠ 0 := Nat.cast_ne_zero.mpr hn.ne'
    push_cast
    push_cast at hq
    field_simp
    ring

theorem getOpcodes_self (a : List Char) (hn : 0 < a.length) :
    getOpcodes a a = [⟨.equal, 0, a.length, 0, a.length⟩] := by
  rw [getOpcodes, getMatchingBlocks_self a hn]
  rw [opcodesAux, opcodesAux, opcodesAux]
  simp [hn.ne']

/-- **C5.** Diffing a string against itself is the identity: for every
string `a` and every threshold `t < 1`, `__diff_line(a, a, t)` returns
exactly `a`, with no markup inserted. -/
theorem diff_line_self (a : List Char) (t : ℚ) (ht : t < 1) :
    diff_line a a t = some a := by
  have hno : ¬(0 < t ∧ ratio a a ≤ t) := by
    rw [ratio_self]
    rintro ⟨_, h2⟩
    exact absurd (lt_of_le_of_lt h2 ht) (lt_irrefl _)
  rw [diff_line, if_neg hno]
  rcases Nat.eq_zero_or_pos a.length with hz | hn
  · rw [List.length_eq_zero] at hz
    subst hz
    have h1 : getMatchingBlocks [] [] = [(0, 0, 0)] := by
      simp [getMatchingBlocks, matchingBlocksAux_empty_range, mergeBlocks]
    rw [getOpcodes, h1]
    simp [opcodesAux]
  · rw [getOpcodes_self a hn]
    simp only [List.foldl_cons, List.foldl_nil, renderOp]
    rw [slice_zero_len]
    rfl

/-- Witness for C5 at a concrete input and threshold. -/
theorem diff_line_self_witness :
    diff_line "cat".toList "cat".toList (1 / 2) = some "cat".toList :=
  diff_line_self "cat".toList (1 / 2) (by norm_num)

/-! ## Assertion Result Enrichment (`_testcase_assert_mod.py`)

The call-site AST node is abstracted by the shapes of the assert call's
argument expressions: an `ast.Call`, a node accepted by `__is_value`, or
anything else.  Python runtime errors that can escape the helpful-message
builder (an unassigned local read, an out-of-range `args[i]`) are modelled
explicitly, since they replace the original `AssertionError`. -/

inductive ArgShape where
  | call | value | other
deriving DecidableEq, Repr

inductive PyError where
  | unboundLocal | indexErr
deriving DecidableEq, Repr

inductive AssertKind where
  | equal | notEqual
  | greater | greaterEqual | less | lessEqual
  | almostEqual | notAlmostEqual
  | isTrue | isFalse | isNone | isNotNone
  | isSame | isNotSame
  | isInstance | notIsInstance
  | inMember | notInMember
deriving DecidableEq, Repr

/-- `__NUM_ARGS.get(name, 2)`. -/
def NUM_ARGS : AssertKind → Nat
  | .isTrue | .isFalse | .isNone | .isNotNone => 1
  | .almostEqual | .notAlmostEqual => 3
  | _ => 2

/-- `__NO_FUNC_CALL = {'In', 'NotIn'}`. -/
def NO_FUNC_CALL : List AssertKind := [.inMember, .notInMember]

/-- `__extract_from_assert_call(node, max_check)`, reduced to the index it
returns (`0`: first argument is the call, `1`: second, `-1`: neither
heuristic matched).  Accessing `args[1]` on a one-argument call raises
`IndexError`, as in Python (short-circuiting of `and` respected). -/
def extract_from_assert_call (args : List ArgShape) (maxCheck : Nat) :
    Except PyError Int :=
  match args with
  | [] => .error .indexErr
  | [a0] =>
    if a0 = .call then .error .indexErr
    else if 1 < maxCheck then .error .indexErr
    else .ok (-1)
  | a0 :: a1 :: _ =>
    if a0 = .call ∧ a1 = .value then .ok 0
    else if 1 < maxCheck ∧ a1 = .call ∧ a0 = .value then .ok 1
    else .ok (-1)

/-- The ordering-name swap table applied by `__add_helpful_msg` (lines
93–96) when `index == 0`. -/
def nameSwap : AssertKind → AssertKind
  | .greater => .lessEqual
  | .lessEqual => .greater
  | .greaterEqual => .less
  | .less => .greaterEqual
  | k => k

/-- The comparison direction described by the rendered message for an
ordering assertion, as a function of the call-site argument shapes: the
source applies `nameSwap` exactly when the extracted index is `0`, i.e.
when the *function call is the left-hand argument*. -/
def describedOrd (name : AssertKind) (arg0 arg1 : ArgShape) : Except PyError AssertKind :=
  (extract_from_assert_call [arg0, arg1] (NUM_ARGS name)).map fun index =>
    if index = 0 then nameSwap name else name

/-- `__add_helpful_msg`, reduced to whether it completes or raises a
Python error.  The local `index` is assigned only when the kind is not in
`__NO_FUNC_CALL`; the later `if index == 0:` (reached for every kind with
`NUM_ARGS ≠ 1`) raises `UnboundLocalError` when it was never assigned.
The successful message formatting itself is abstracted to `ok`. -/
def add_helpful_msg (k : AssertKind) (nodeArgs : List ArgShape) :
    Except PyError Unit :=
  let step1 : Except PyError (Option Int) :=
    if k ∈ NO_FUNC_CALL then .ok none
    else (extract_from_assert_call nodeArgs (NUM_ARGS k)).map some
  match step1 with
  | .error e => .error e
  | .ok idx =>
    if NUM_ARGS k = 1 then .ok ()
    else
      match idx with
      | none => .error .unboundLocal
      | some _ => .ok ()

/-- The `AssertionError` raised by an underlying `unittest` assertion,
with the flag recording whether a `helpful_msg` attribute was attached. -/
structure AssertErr where
  text : List Char
  helpful : Bool
deriving DecidableEq, Repr

inductive WrapResult where
  | passed : WrapResult
  | assertFailed : AssertErr → WrapResult
  | pythonError : PyError → WrapResult
deriving DecidableEq, Repr

/-- `__make_assert_function(name)`'s wrapper: run the underlying
assertion; on `AssertionError`, when no custom message was supplied,
attach the helpful message and re-raise the same error — unless the
helpful-message builder itself raises, in which case that Python error
propagates instead of the assertion failure. -/
def assert_wrapper (k : AssertKind) (nodeArgs : List ArgShape)
    (underlying : Option AssertErr) (customMsg : Bool) : WrapResult :=
  match underlying with
  | none => .passed
  | some e =>
    if customMsg then .assertFailed e
    else
      match add_helpful_msg k nodeArgs with
      | .ok _ => .assertFailed { e with helpful := true }
      | .error pe => .pythonError pe

/-! ### Claims C9 and C10 -/

/-- **C9** (evaluation of the code at the failing input): for an ordering
assertion the source swaps the described comparison exactly when the
*function call is the left-hand argument* (`assertGreater(f(x), 5)`
is described as "less than or equal to"), and leaves it as written when
the arguments are reversed (`assertGreater(5, f(x))` stays "greater
than") — the exact opposite of the claimed condition, and in the
reversed case the as-written description contradicts the assertion's
actual requirement on the call's value. -/
theorem ordering_direction_code_behaviour :
    describedOrd .greater .call .value = .ok .lessEqual ∧
    describedOrd .greater .value .call = .ok .greater ∧
    describedOrd .less .call .value = .ok .greaterEqual ∧
    describedOrd .less .value .call = .ok .less :=
  ⟨rfl, rfl, rfl, rfl⟩

/-- **C10** (evaluation of the code at the failing input): a failing
`assertIn(1, [2])` with no custom message is *not* re-raised as the same
`AssertionError`: `__add_helpful_msg` reads the local `index`, which is
never assigned for the In/NotIn kinds, so an `UnboundLocalError`
replaces the assertion failure, while e.g. a failing `assertEqual` is
re-raised (augmented) and passing assertions pass. -/
theorem wrapper_in_unbound_local :
    assert_wrapper .inMember [.value, .value]
        (some { text := "1 not found in [2]".toList, helpful := false }) false
      = .pythonError .unboundLocal ∧
    assert_wrapper .equal [.call, .value]
        (some { text := "1 != 2".toList, helpful := false }) false
      = .assertFailed { text := "1 != 2".toList, helpful := true } ∧
    assert_wrapper .inMember [.value, .value] none false = .passed := by
  decide

/-! ## Style Marker Codec decoding (`__styling` / `__convert_to_html`,
`__main__.py` lines 11–49) -/

/-- The `ch_map` of `__convert_to_html`. -/
def chMapped (c : Char) : Option (List Char) :=
  if c = '\n' then some "<br>".toList
  else if c = '<' then some "&lt;".toList
  else if c = '>' then some "&gt;".toList
  else if c = '&' then some "&amp;".toList
  else if c = '"' then some "&quot;".toList
  else if c = '\'' then some "&apos;".toList
  else none

/-- The "de-bold the character" step of `__convert_to_html`. -/
def debold (c : Char) : Char :=
  if 120812 ≤ c.toNat ∧ c.toNat < 120812 + 10 then Char.ofNat (c.toNat - 120812 + 48)
  else if 120276 ≤ c.toNat ∧ c.toNat < 120276 + 26 then Char.ofNat (c.toNat - 120276 + 65)
  else if 120302 ≤ c.toNat ∧ c.toNat < 120302 + 26 then Char.ofNat (c.toNat - 120302 + 97)
  else c

/-- The per-character translation of `__convert_to_html`: the `ch_map`
replacement if any, else the de-bolded character. -/
def escapeChar (c : Char) : List Char :=
  match chMapped c with
  | some s => s
  | none => [debold c]

def escapeStr (s : List Char) : List Char := s.flatMap escapeChar

def bTag : List Char :=
  "<b style=\"font-style:italic;font-weight:bolder;color:green;\">".toList

def insTag : List Char :=
  "<ins style=\"text-decoration:underline;background-color:#d4fcbc;\">".toList

def delTag : List Char :=
  "<del style=\"text-decoration:line-through;background-color:#fbb;color:#555;\">".toList

/-- `__styling(ch, last_ch, marker, current, start, end)`. -/
def styling (ch : List Char) (lastCh : Option Char) (marker : Char)
    (current : Bool) (startTag endTag : List Char) : List Char × Bool :=
  if ch = [marker] then (if current then [] else startTag, true)
  else if current ∧ lastCh ≠ some marker then (endTag ++ ch, false)
  else (ch, current)

structure HtmlState where
  output : List Char
  bolding : Bool
  underlining : Bool
  striking : Bool
  lastCh : Option Char
deriving DecidableEq, Repr

/-- One iteration of the `for raw_ch in text` loop of
`__convert_to_html`. -/
def htmlStep (st : HtmlState) (rawCh : Char) : HtmlState :=
  let ch0 := escapeChar rawCh
  let r1 := styling ch0 st.lastCh wjChar st.bolding bTag "</b>".toList
  let r2 := styling r1.1 st.lastCh ulChar st.underlining insTag "</ins>".toList
  let r3 := styling r2.1 st.lastCh stChar st.striking delTag "</del>".toList
  { output := st.output ++ r3.1
    bolding := r1.2
    underlining := r2.2
    striking := r3.2
    lastCh := some rawCh }

/-- `__convert_to_html(text)`: run the loop, force-close unterminated
styles, and wrap in the `<pre>` block. -/
def convert_to_html (text : List Char) : List Char :=
  let st := text.foldl htmlStep
    { output := "<pre>".toList, bolding := false, underlining := false,
      striking := false, lastCh := none }
  st.output ++ (if st.bolding then "</b>".toList else [])
    ++ (if st.underlining then "</ins>".toList else [])
    ++ (if st.striking then "</del>".toList else []) ++ "</pre>".toList

/-! ### Encoding side: texts with style spans -/

inductive Style where
  | bold | underline | strike
deriving DecidableEq, Repr

/-- One run of text carrying zero or one style. -/
structure Seg where
  style : Option Style
  text : List Char
deriving DecidableEq, Repr

/-- Encoding a segment with the producer helpers `__bold`,
`__underline`, `__strikethrough`. -/
def encodeSeg : Seg → List Char
  | ⟨none, s⟩ => s
  | ⟨some .bold, s⟩ => boldText s
  | ⟨some .underline, s⟩ => underlineText s
  | ⟨some .strike, s⟩ => strikeText s

def encodeSegs (L : List Seg) : List Char := (L.map encodeSeg).flatten

def isMarker (c : Char) : Bool :=
  c.toNat = 0x2060 ∨ c.toNat = 0x333 ∨ c.toNat = 0x334

/-- Well-formed span structure: every segment is non-empty and contains
none of the three reserved marker characters, and no two styled spans
are adjacent. -/
def WFSegs (L : List Seg) : Prop :=
  (∀ seg ∈ L, seg.text ≠ [] ∧ ∀ c ∈ seg.text, isMarker c = false) ∧
  L.Chain' (fun s1 s2 => s1.style = none ∨ s2.style = none)

def openTag : Style → List Char
  | .bold => bTag
  | .underline => insTag
  | .strike => delTag

def closeTag : Style → List Char
  | .bold => "</b>".toList
  | .underline => "</ins>".toList
  | .strike => "</del>".toList

/-- The expected decoding of one segment: the escaped text, wrapped in
the matching open/close tags when styled. -/
def renderSeg : Seg → List Char
  | ⟨none, s⟩ => escapeStr s
  | ⟨some sty, s⟩ => openTag sty ++ escapeStr s ++ closeTag sty

/-- A last-seen character suitable for starting a fresh segment: none at
the very beginning, otherwise any non-marker character. -/
def cleanLast : Option Char → Prop
  | none => True
  | some c => isMarker c = false

/-! ### Character-level facts about the escape map -/

theorem toNat_Char_ofNat {n : Nat} (h : n.isValidChar) :
    (Char.ofNat n).toNat = n := by
  rw [Char.ofNat, dif_pos h]
  rfl

theorem validChar_high {n : Nat} (h1 : 0xe000 ≤ n) (h2 : n < 0x110000) :
    n.isValidChar := Or.inr ⟨h1, h2⟩

theorem validChar_low {n : Nat} (h : n < 0xd800) : n.isValidChar := Or.inl h

theorem not_marker_iff {c : Char} :
    isMarker c = false ↔ c.toNat ≠ 0x2060 ∧ c.toNat ≠ 0x333 ∧ c.toNat ≠ 0x334 := by
  rw [isMarker]
  simp [not_or]

theorem ne_of_not_marker {d m : Char} (hd : isMarker d = false)
    (hm : isMarker m = true) : d ≠ m := by
  intro h
  rw [h, hm] at hd
  simp at hd

theorem boldChar_not_marker {c : Char} (hc : isMarker c = false) :
    isMarker (boldChar c) = false := by
  rw [boldChar]
  split
  · rw [not_marker_iff, toNat_Char_ofNat (validChar_high (by omega) (by omega))]
    omega
  · split
    · rw [not_marker_iff, toNat_Char_ofNat (validChar_high (by omega) (by omega))]
      omega
    · split
      · rw [not_marker_iff, toNat_Char_ofNat (validChar_high (by omega) (by omega))]
        omega
      · exact hc

theorem debold_not_marker {c : Char} (hc : isMarker c = false) :
    isMarker (debold c) = false := by
  rw [debold]
  split
  · rw [not_marker_iff, toNat_Char_ofNat (validChar_low (by omega))]
    omega
  · split
    · rw [not_marker_iff, toNat_Char_ofNat (validChar_low (by omega))]
      omega
    · split
      · rw [not_marker_iff, toNat_Char_ofNat (validChar_low (by omega))]
        omega
      · exact hc

/-- For a non-marker character the escape never produces a bare marker
singleton. -/
theorem escape_ne_single {c : Char} (hc : isMarker c = false)
    {m : Char} (hm : isMarker m = true) : escapeChar c ≠ [m] := by
  rw [escapeChar]
  rcases hmc : chMapped c with _ | s
  · intro h
    rw [List.cons.injEq] at h
    exact ne_of_not_marker (debold_not_marker hc) hm h.1
  · rw [chMapped] at hmc
    have hm1 : m.toNat = 0x2060 ∨ m.toNat = 0x333 ∨ m.toNat = 0x334 := by
      rw [isMarker] at hm
      simpa using hm
    split at hmc <;> [skip; split at hmc] <;> [skip; skip; split at hmc]
      <;> [skip; skip; skip; split at hmc] <;> [skip; skip; skip; skip; split at hmc]
      <;> [skip; skip; skip; skip; skip; split at hmc] <;>
      first
        | (cases hmc; intro h; have hl := congrArg List.length h; simp at hl)
        | cases hmc

theorem chMapped_none {c : Char} (h1 : c.toNat ≠ 10) (h2 : c.toNat ≠ 60)
    (h3 : c.toNat ≠ 62) (h4 : c.toNat ≠ 38) (h5 : c.toNat ≠ 34)
    (h6 : c.toNat ≠ 39) : chMapped c = none := by
  rw [chMapped]
  rw [if_neg (fun h => h1 (by rw [h]; rfl))]
  rw [if_neg (fun h => h2 (by rw [h]; rfl))]
  rw [if_neg (fun h => h3 (by rw [h]; rfl))]
  rw [if_neg (fun h => h4 (by rw [h]; rfl))]
  rw [if_neg (fun h => h5 (by rw [h]; rfl))]
  rw [if_neg (fun h => h6 (by rw [h]; rfl))]

theorem debold_id_of_lt {c : Char} (h : c.toNat < 120276) : debold c = c := by
  rw [debold, if_neg (by omega), if_neg (by omega), if_neg (by omega)]

/-- The decoder's escape undoes the encoder's bold font substitution:
escaping a bolded character gives the same result as escaping the
character itself. -/
theorem escape_boldChar (c : Char) : escapeChar (boldChar c) = escapeChar c := by
  rw [boldChar]
  split
  · have hv : (Char.ofNat (c.toNat + 120812 - 48)).toNat = c.toNat + 120812 - 48 :=
      toNat_Char_ofNat (validChar_high (by omega) (by omega))
    rw [escapeChar, escapeChar]
    rw [chMapped_none (c := Char.ofNat (c.toNat + 120812 - 48))
      (by omega) (by omega) (by omega) (by omega) (by omega) (by omega)]
    rw [chMapped_none (by omega) (by omega) (by omega) (by omega) (by omega) (by omega)]
    rw [debold, if_pos (by omega)]
    have harg : (Char.ofNat (c.toNat + 120812 - 48)).toNat - 120812 + 48 = c.toNat := by
      omega
    rw [harg, Char.ofNat_toNat, debold_id_of_lt (by omega)]
  · split
    · have hv : (Char.ofNat (c.toNat + 120276 - 65)).toNat = c.toNat + 120276 - 65 :=
        toNat_Char_ofNat (validChar_high (by omega) (by omega))
      rw [escapeChar, escapeChar]
      rw [chMapped_none (c := Char.ofNat (c.toNat + 120276 - 65))
        (by omega) (by omega) (by omega) (by omega) (by omega) (by omega)]
      rw [chMapped_none (by omega) (by omega) (by omega) (by omega) (by omega) (by omega)]
      rw [debold, if_neg (by omega), if_pos (by omega)]
      have harg : (Char.ofNat (c.toNat + 120276 - 65)).toNat - 120276 + 65 = c.toNat := by
        omega
      rw [harg, Char.ofNat_toNat, debold_id_of_lt (by omega)]
    · split
      · have hv : (Char.ofNat (c.toNat + 120302 - 97)).toNat = c.toNat + 120302 - 97 :=
          toNat_Char_ofNat (validChar_high (by omega) (by omega))
        rw [escapeChar, escapeChar]
        rw [chMapped_none (c := Char.ofNat (c.toNat + 120302 - 97))
          (by omega) (by omega) (by omega) (by omega) (by omega) (by omega)]
        rw [chMapped_none (by omega) (by omega) (by omega) (by omega) (by omega) (by omega)]
        rw [debold]
        rw [if_neg (by omega), if_neg (by omega), if_pos (by omega)]
        have harg : (Char.ofNat (c.toNat + 120302 - 97)).toNat - 120302 + 97 = c.toNat := by
          omega
        rw [harg, Char.ofNat_toNat, debold_id_of_lt (by omega)]
      · rfl

/-! ### Single-step behaviour of the decoder loop -/

theorem step_plain (out : List Char) (last : Option Char) {c : Char}
    (hc : isMarker c = false) :
    htmlStep ⟨out, false, false, false, last⟩ c =
      ⟨out ++ escapeChar c, false, false, false, some c⟩ := by
  have h1 : escapeChar c ≠ [wjChar] := escape_ne_single hc (by decide)
  have h2 : escapeChar c ≠ [ulChar] := escape_ne_single hc (by decide)
  have h3 : escapeChar c ≠ [stChar] := escape_ne_single hc (by decide)
  simp [htmlStep, styling, h1, h2, h3]

theorem step_open_bold (out : List Char) (last : Option Char) :
    htmlStep ⟨out, false, false, false, last⟩ wjChar =
      ⟨out ++ bTag, true, false, false, some wjChar⟩ := by
  have he : escapeChar wjChar = [wjChar] := by decide
  have h2 : bTag ≠ [ulChar] := by decide
  have h3 : bTag ≠ [stChar] := by decide
  simp [htmlStep, styling, he, h2, h3]

theorem step_open_underline (out : List Char) (last : Option Char) :
    htmlStep ⟨out, false, false, false, last⟩ ulChar =
      ⟨out ++ insTag, false, true, false, some ulChar⟩ := by
  have he : escapeChar ulChar = [ulChar] := by decide
  have h1 : (ulChar : Char) ≠ wjChar := by decide
  have h3 : insTag ≠ [stChar] := by decide
  simp [htmlStep, styling, he, h1, h3]

theorem step_open_strike (out : List Char) (last : Option Char) :
    htmlStep ⟨out, false, false, false, last⟩ stChar =
      ⟨out ++ delTag, false, false, true, some stChar⟩ := by
  have he : escapeChar stChar = [stChar] := by decide
  have h1 : (stChar : Char) ≠ wjChar := by decide
  have h2 : (stChar : Char) ≠ ulChar := by decide
  simp [htmlStep, styling, he, h1, h2]

theorem step_marker_bold (out : List Char) (last : Option Char) :
    htmlStep ⟨out, true, false, false, last⟩ wjChar =
      ⟨out, true, false, false, some wjChar⟩ := by
  have he : escapeChar wjChar = [wjChar] := by decide
  simp [htmlStep, styling, he]

theorem step_marker_underline (out : List Char) (last : Option Char) :
    htmlStep ⟨out, false, true, false, last⟩ ulChar =
      ⟨out, false, true, false, some ulChar⟩ := by
  have he : escapeChar ulChar = [ulChar] := by decide
  have h1 : (ulChar : Char) ≠ wjChar := by decide
  simp [htmlStep, styling, he, h1]

theorem step_marker_strike (out : List Char) (last : Option Char) :
    htmlStep ⟨out, false, false, true, last⟩ stChar =
      ⟨out, false, false, true, some stChar⟩ := by
  have he : escapeChar stChar = [stChar] := by decide
  have h1 : (stChar : Char) ≠ wjChar := by decide
  have h2 : (stChar : Char) ≠ ulChar := by decide
  simp [htmlStep, styling, he, h1, h2]

theorem step_char_bold (out : List Char) {c : Char} (hc : isMarker c = false) :
    htmlStep ⟨out, true, false, false, some wjChar⟩ c =
      ⟨out ++ escapeChar c, true, false, false, some c⟩ := by
  have h1 : escapeChar c ≠ [wjChar] := escape_ne_single hc (by decide)
  have h2 : escapeChar c ≠ [ulChar] := escape_ne_single hc (by decide)
  have h3 : escapeChar c ≠ [stChar] := escape_ne_single hc (by decide)
  simp [htmlStep, styling, h1, h2, h3]

theorem step_char_underline (out : List Char) {c : Char} (hc : isMarker c = false) :
    htmlStep ⟨out, false, true, false, some ulChar⟩ c =
      ⟨out ++ escapeChar c, false, true, false, some c⟩ := by
  have h1 : escapeChar c ≠ [wjChar] := escape_ne_single hc (by decide)
  have h2 : escapeChar c ≠ [ulChar] := escape_ne_single hc (by decide)
  have h3 : escapeChar c ≠ [stChar] := escape_ne_single hc (by decide)
  simp [htmlStep, styling, h1, h2, h3]

theorem step_char_strike (out : List Char) {c : Char} (hc : isMarker c = false) :
    htmlStep ⟨out, false, false, true, some stChar⟩ c =
      ⟨out ++ escapeChar c, false, false, true, some c⟩ := by
  have h1 : escapeChar c ≠ [wjChar] := escape_ne_single hc (by decide)
  have h2 : escapeChar c ≠ [ulChar] := escape_ne_single hc (by decide)
  have h3 : escapeChar c ≠ [stChar] := escape_ne_single hc (by decide)
  simp [htmlStep, styling, h1, h2, h3]

theorem step_close_bold (out : List Char) {d c : Char} (hd : d ≠ wjChar)
    (hc : isMarker c = false) :
    htmlStep ⟨out, true, false, false, some d⟩ c =
      ⟨out ++ "</b>".toList ++ escapeChar c, false, false, false, some c⟩ := by
  have h1 : escapeChar c ≠ [wjChar] := escape_ne_single hc (by decide)
  have h2 : "</b>".toList ++ escapeChar c ≠ [ulChar] := by
    intro h
    have := congrArg List.length h
    simp at this
  have h3 : "</b>".toList ++ escapeChar c ≠ [stChar] := by
    intro h
    have := congrArg List.length h
    simp at this
  simp [htmlStep, styling, h1, h2, h3, hd, List.append_assoc]

theorem step_close_underline (out : List Char) {d c : Char} (hd : d ≠ ulChar)
    (hc : isMarker c = false) :
    htmlStep ⟨out, false, true, false, some d⟩ c =
      ⟨out ++ "</ins>".toList ++ escapeChar c, false, false, false, some c⟩ := by
  have h1 : escapeChar c ≠ [wjChar] := escape_ne_single hc (by decide)
  have h2 : escapeChar c ≠ [ulChar] := escape_ne_single hc (by decide)
  have h3 : "</ins>".toList ++ escapeChar c ≠ [stChar] := by
    intro h
    have := congrArg List.length h
    simp at this
  simp [htmlStep, styling, h1, h2, h3, hd, List.append_assoc]

theorem step_close_strike (out : List Char) {d c : Char} (hd : d ≠ stChar)
    (hc : isMarker c = false) :
    htmlStep ⟨out, false, false, true, some d⟩ c =
      ⟨out ++ "</del>".toList ++ escapeChar c, false, false, false, some c⟩ := by
  have h1 : escapeChar c ≠ [wjChar] := escape_ne_single hc (by decide)
  have h2 : escapeChar c ≠ [ulChar] := escape_ne_single hc (by decide)
  have h3 : escapeChar c ≠ [stChar] := escape_ne_single hc (by decide)
  simp [htmlStep, styling, h1, h2, h3, hd, List.append_assoc]

/-! ### Folding the decoder over encoded segments -/

theorem boldText_cons (c : Char) (cs : List Char) :
    boldText (c :: cs) = wjChar :: boldChar c :: boldText cs := by
  simp [boldText]

theorem underlineText_cons (c : Char) (cs : List Char) :
    underlineText (c :: cs) = ulChar :: c :: underlineText cs := by
  simp [underlineText]

theorem strikeText_cons (c : Char) (cs : List Char) :
    strikeText (c :: cs) = stChar :: c :: strikeText cs := by
  simp [strikeText]

theorem escapeStr_cons (c : Char) (cs : List Char) :
    escapeStr (c :: cs) = escapeChar c ++ escapeStr cs := by
  simp [escapeStr]

theorem fold_bold_inside (cs : List Char) (hcs : ∀ c ∈ cs, isMarker c = false)
    (out : List Char) (d : Char) (hd : isMarker d = false) :
    ∃ d', isMarker d' = false ∧
      (boldText cs).foldl htmlStep ⟨out, true, false, false, some d⟩ =
        ⟨out ++ escapeStr cs, true, false, false, some d'⟩ := by
  induction cs generalizing out d with
  | nil => exact ⟨d, hd, by simp [boldText, escapeStr]⟩
  | cons c cs ih =>
    have hc : isMarker c = false := hcs c (List.mem_cons_self c cs)
    have hcs' : ∀ x ∈ cs, isMarker x = false :=
      fun x hx => hcs x (List.mem_cons_of_mem c hx)
    rw [boldText_cons, List.foldl_cons, List.foldl_cons, step_marker_bold,
      step_char_bold _ (boldChar_not_marker hc), escape_boldChar]
    obtain ⟨d', hd', heq⟩ := ih hcs' (out ++ escapeChar c) (boldChar c)
      (boldChar_not_marker hc)
    exact ⟨d', hd', by rw [heq]; simp [escapeStr_cons, List.append_assoc]⟩

theorem fold_underline_inside (cs : List Char) (hcs : ∀ c ∈ cs, isMarker c = false)
    (out : List Char) (d : Char) (hd : isMarker d = false) :
    ∃ d', isMarker d' = false ∧
      (underlineText cs).foldl htmlStep ⟨out, false, true, false, some d⟩ =
        ⟨out ++ escapeStr cs, false, true, false, some d'⟩ := by
  induction cs generalizing out d with
  | nil => exact ⟨d, hd, by simp [underlineText, escapeStr]⟩
  | cons c cs ih =>
    have hc : isMarker c = false := hcs c (List.mem_cons_self c cs)
    have hcs' : ∀ x ∈ cs, isMarker x = false :=
      fun x hx => hcs x (List.mem_cons_of_mem c hx)
    rw [underlineText_cons, List.foldl_cons, List.foldl_cons, step_marker_underline,
      step_char_underline _ hc]
    obtain ⟨d', hd', heq⟩ := ih hcs' (out ++ escapeChar c) c hc
    exact ⟨d', hd', by rw [heq]; simp [escapeStr_cons, List.append_assoc]⟩

theorem fold_strike_inside (cs : List Char) (hcs : ∀ c ∈ cs, isMarker c = false)
    (out : List Char) (d : Char) (hd : isMarker d = false) :
    ∃ d', isMarker d' = false ∧
      (strikeText cs).foldl htmlStep ⟨out, false, false, true, some d⟩ =
        ⟨out ++ escapeStr cs, false, false, true, some d'⟩ := by
  induction cs generalizing out d with
  | nil => exact ⟨d, hd, by simp [strikeText, escapeStr]⟩
  | cons c cs ih =>
    have hc : isMarker c = false := hcs c (List.mem_cons_self c cs)
    have hcs' : ∀ x ∈ cs, isMarker x = false :=
      fun x hx => hcs x (List.mem_cons_of_mem c hx)
    rw [strikeText_cons, List.foldl_cons, List.foldl_cons, step_marker_strike,
      step_char_strike _ hc]
    obtain ⟨d', hd', heq⟩ := ih hcs' (out ++ escapeChar c) c hc
    exact ⟨d', hd', by rw [heq]; simp [escapeStr_cons, List.append_assoc]⟩

theorem fold_bold_span (c : Char) (cs : List Char)
    (hall : ∀ x ∈ c :: cs, isMarker x = false) (out : List Char)
    (last : Option Char) :
    ∃ d', isMarker d' = false ∧
      (boldText (c :: cs)).foldl htmlStep ⟨out, false, false, false, last⟩ =
        ⟨out ++ bTag ++ escapeStr (c :: cs), true, false, false, some d'⟩ := by
  have hc : isMarker c = false := hall c (List.mem_cons_self c cs)
  rw [boldText_cons, List.foldl_cons, List.foldl_cons, step_open_bold,
    step_char_bold _ (boldChar_not_marker hc), escape_boldChar]
  obtain ⟨d', hd', heq⟩ := fold_bold_inside cs
    (fun x hx => hall x (List.mem_cons_of_mem c hx))
    (out ++ bTag ++ escapeChar c) (boldChar c) (boldChar_not_marker hc)
  exact ⟨d', hd', by rw [heq]; simp [escapeStr_cons, List.append_assoc]⟩

theorem fold_underline_span (c : Char) (cs : List Char)
    (hall : ∀ x ∈ c :: cs, isMarker x = false) (out : List Char)
    (last : Option Char) :
    ∃ d', isMarker d' = false ∧
      (underlineText (c :: cs)).foldl htmlStep ⟨out, false, false, false, last⟩ =
        ⟨out ++ insTag ++ escapeStr (c :: cs), false, true, false, some d'⟩ := by
  have hc : isMarker c = false := hall c (List.mem_cons_self c cs)
  rw [underlineText_cons, List.foldl_cons, List.foldl_cons, step_open_underline,
    step_char_underline _ hc]
  obtain ⟨d', hd', heq⟩ := fold_underline_inside cs
    (fun x hx => hall x (List.mem_cons_of_mem c hx))
    (out ++ insTag ++ escapeChar c) c hc
  exact ⟨d', hd', by rw [heq]; simp [escapeStr_cons, List.append_assoc]⟩

theorem fold_strike_span (c : Char) (cs : List Char)
    (hall : ∀ x ∈ c :: cs, isMarker x = false) (out : List Char)
    (last : Option Char) :
    ∃ d', isMarker d' = false ∧
      (strikeText (c :: cs)).foldl htmlStep ⟨out, false, false, false, last⟩ =
        ⟨out ++ delTag ++ escapeStr (c :: cs), false, false, true, some d'⟩ := by
  have hc : isMarker c = false := hall c (List.mem_cons_self c cs)
  rw [strikeText_cons, List.foldl_cons, List.foldl_cons, step_open_strike,
    step_char_strike _ hc]
  obtain ⟨d', hd', heq⟩ := fold_strike_inside cs
    (fun x hx => hall x (List.mem_cons_of_mem c hx))
    (out ++ delTag ++ escapeChar c) c hc
  exact ⟨d', hd', by rw [heq]; simp [escapeStr_cons, List.append_assoc]⟩

theorem fold_plain_clean (s : List Char) (hs : ∀ c ∈ s, isMarker c = false)
    (out : List Char) (last : Option Char) (hlast : cleanLast last) :
    ∃ last', cleanLast last' ∧
      s.foldl htmlStep ⟨out, false, false, false, last⟩ =
        ⟨out ++ escapeStr s, false, false, false, last'⟩ := by
  induction s generalizing out last with
  | nil => exact ⟨last, hlast, by simp [escapeStr]⟩
  | cons c cs ih =>
    have hc : isMarker c = false := hs c (List.mem_cons_self c cs)
    rw [List.foldl_cons, step_plain _ _ hc]
    obtain ⟨l', hl', heq⟩ := ih (fun x hx => hs x (List.mem_cons_of_mem c hx))
      (out ++ escapeChar c) (some c) hc
    exact ⟨l', hl', by rw [heq]; simp [escapeStr_cons, List.append_assoc]⟩

theorem fold_plain_after_bold (c : Char) (s : List Char)
    (hall : ∀ x ∈ c :: s, isMarker x = false) (out : List Char) {d : Char}
    (hd : isMarker d = false) :
    ∃ last', cleanLast last' ∧
      (c :: s).foldl htmlStep ⟨out, true, false, false, some d⟩ =
        ⟨out ++ "</b>".toList ++ escapeStr (c :: s), false, false, false, last'⟩ := by
  have hc : isMarker c = false := hall c (List.mem_cons_self c s)
  have hdw : d ≠ wjChar := ne_of_not_marker hd (by decide)
  rw [List.foldl_cons, step_close_bold _ hdw hc]
  obtain ⟨l', hl', heq⟩ := fold_plain_clean s
    (fun x hx => hall x (List.mem_cons_of_mem c hx))
    (out ++ "</b>".toList ++ escapeChar c) (some c) hc
  exact ⟨l', hl', by rw [heq]; simp [escapeStr_cons, List.append_assoc]⟩

theorem fold_plain_after_underline (c : Char) (s : List Char)
    (hall : ∀ x ∈ c :: s, isMarker x = false) (out : List Char) {d : Char}
    (hd : isMarker d = false) :
    ∃ last', cleanLast last' ∧
      (c :: s).foldl htmlStep ⟨out, false, true, false, some d⟩ =
        ⟨out ++ "</ins>".toList ++ escapeStr (c :: s), false, false, false, last'⟩ := by
  have hc : isMarker c = false := hall c (List.mem_cons_self c s)
  have hdu : d ≠ ulChar := ne_of_not_marker hd (by decide)
  rw [List.foldl_cons, step_close_underline _ hdu hc]
  obtain ⟨l', hl', heq⟩ := fold_plain_clean s
    (fun x hx => hall x (List.mem_cons_of_mem c hx))
    (out ++ "</ins>".toList ++ escapeChar c) (some c) hc
  exact ⟨l', hl', by rw [heq]; simp [escapeStr_cons, List.append_assoc]⟩

theorem fold_plain_after_strike (c : Char) (s : List Char)
    (hall : ∀ x ∈ c :: s, isMarker x = false) (out : List Char) {d : Char}
    (hd : isMarker d = false) :
    ∃ last', cleanLast last' ∧
      (c :: s).foldl htmlStep ⟨out, false, false, true, some d⟩ =
        ⟨out ++ "</del>".toList ++ escapeStr (c :: s), false, false, false, last'⟩ := by
  have hc : isMarker c = false := hall c (List.mem_cons_self c s)
  have hds : d ≠ stChar := ne_of_not_marker hd (by decide)
  rw [List.foldl_cons, step_close_strike _ hds hc]
  obtain ⟨l', hl', heq⟩ := fold_plain_clean s
    (fun x hx => hall x (List.mem_cons_of_mem c hx))
    (out ++ "</del>".toList ++ escapeChar c) (some c) hc
  exact ⟨l', hl', by rw [heq]; simp [escapeStr_cons, List.append_assoc]⟩

/-! ### The round-trip theorem -/

/-- Output plus the force-closing of any unterminated styles (the tail
of `__convert_to_html` after the loop). -/
def closeAll (st : HtmlState) : List Char :=
  st.output ++ (if st.bolding then "</b>".toList else [])
    ++ (if st.underlining then "</ins>".toList else [])
    ++ (if st.striking then "</del>".toList else [])

theorem encodeSegs_cons (seg : Seg) (rest : List Seg) :
    encodeSegs (seg :: rest) = encodeSeg seg ++ encodeSegs rest := by
  simp [encodeSegs]

theorem fold_segs : ∀ (n : Nat) (L : List Seg), L.length ≤ n → WFSegs L →
    ∀ (out : List Char) (last : Option Char), cleanLast last →
    closeAll ((encodeSegs L).foldl htmlStep ⟨out, false, false, false, last⟩) =
      out ++ (L.map renderSeg).flatten := by
  intro n
  induction n with
  | zero =>
    intro L hlen _ out last _
    have hnil : L = [] := List.length_eq_zero.mp (Nat.le_zero.mp hlen)
    subst hnil
    simp [encodeSegs, closeAll]
  | succ n ih =>
    intro L hlen hwf out last hlast
    rcases L with _ | ⟨⟨sty, s⟩, rest⟩
    · simp [encodeSegs, closeAll]
    obtain ⟨hseg, hchain⟩ := hwf
    have hs := hseg ⟨sty, s⟩ (List.mem_cons_self _ _)
    obtain ⟨c, cs, rfl⟩ : ∃ c cs, s = c :: cs := by
      rcases s with _ | ⟨c, cs⟩
      · exact absurd rfl hs.1
      · exact ⟨c, cs, rfl⟩
    rcases sty with _ | sty
    · -- unstyled head segment
      have hwfrest : WFSegs rest :=
        ⟨fun seg h => hseg seg (List.mem_cons_of_mem _ h), hchain.tail⟩
      rw [encodeSegs_cons, List.foldl_append]
      obtain ⟨l', hl', heq⟩ := fold_plain_clean (c :: cs) hs.2 out last hlast
      rw [show encodeSeg ⟨none, c :: cs⟩ = c :: cs from rfl, heq]
      rw [ih rest (by simp only [List.length_cons] at hlen; omega)
        hwfrest (out ++ escapeStr (c :: cs)) l' hl']
      simp [renderSeg, List.append_assoc]
    · -- styled head segment
      rcases rest with _ | ⟨⟨sty2, s2⟩, rest2⟩
      · -- the styled span ends the text: the decoder force-closes it
        rw [encodeSegs_cons]
        rw [show encodeSegs [] = [] from rfl, List.append_nil]
        rcases sty with _ | _ | _
        · obtain ⟨d', hd', heq⟩ := fold_bold_span c cs hs.2 out last
          rw [show encodeSeg ⟨some .bold, c :: cs⟩ = boldText (c :: cs) from rfl, heq]
          simp [closeAll, renderSeg, openTag, closeTag, List.append_assoc]
        · obtain ⟨d', hd', heq⟩ := fold_underline_span c cs hs.2 out last
          rw [show encodeSeg ⟨some .underline, c :: cs⟩ = underlineText (c :: cs) from rfl,
            heq]
          simp [closeAll, renderSeg, openTag, closeTag, List.append_assoc]
        · obtain ⟨d', hd', heq⟩ := fold_strike_span c cs hs.2 out last
          rw [show encodeSeg ⟨some .strike, c :: cs⟩ = strikeText (c :: cs) from rfl, heq]
          simp [closeAll, renderSeg, openTag, closeTag, List.append_assoc]
      · -- a following segment exists; by non-adjacency it is unstyled,
        -- and its first character closes the open style
        have hsty2 : sty2 = none := by
          have h2 := (List.chain'_cons.mp hchain).1
          rcases h2 with h2 | h2
          · exact absurd h2 (by simp)
          · exact h2
        subst hsty2
        have hs2 := hseg ⟨none, s2⟩ (List.mem_cons_of_mem _ (List.mem_cons_self _ _))
        obtain ⟨c2, cs2, rfl⟩ : ∃ c2 cs2, s2 = c2 :: cs2 := by
          rcases s2 with _ | ⟨c2, cs2⟩
          · exact absurd rfl hs2.1
          · exact ⟨c2, cs2, rfl⟩
        have hwfrest2 : WFSegs rest2 :=
          ⟨fun seg h => hseg seg
            (List.mem_cons_of_mem _ (List.mem_cons_of_mem _ h)), hchain.tail.tail⟩
        have hlen2 : rest2.length ≤ n := by
          simp only [List.length_cons] at hlen
          omega
        rw [encodeSegs_cons, encodeSegs_cons, List.foldl_append, List.foldl_append]
        rcases sty with _ | _ | _
        · obtain ⟨d', hd', heq⟩ := fold_bold_span c cs hs.2 out last
          rw [show encodeSeg ⟨some .bold, c :: cs⟩ = boldText (c :: cs) from rfl, heq]
          obtain ⟨l', hl', heq2⟩ := fold_plain_after_bold c2 cs2 hs2.2 _ hd'
          rw [show encodeSeg ⟨none, c2 :: cs2⟩ = c2 :: cs2 from rfl, heq2]
          rw [ih rest2 hlen2 hwfrest2 _ l' hl']
          simp [renderSeg, openTag, closeTag, List.append_assoc]
        · obtain ⟨d', hd', heq⟩ := fold_underline_span c cs hs.2 out last
          rw [show encodeSeg ⟨some .underline, c :: cs⟩ = underlineText (c :: cs) from rfl,
            heq]
          obtain ⟨l', hl', heq2⟩ := fold_plain_after_underline c2 cs2 hs2.2 _ hd'
          rw [show encodeSeg ⟨none, c2 :: cs2⟩ = c2 :: cs2 from rfl, heq2]
          rw [ih rest2 hlen2 hwfrest2 _ l' hl']
          simp [renderSeg, openTag, closeTag, List.append_assoc]
        · obtain ⟨d', hd', heq⟩ := fold_strike_span c cs hs.2 out last
          rw [show encodeSeg ⟨some .strike, c :: cs⟩ = strikeText (c :: cs) from rfl, heq]
          obtain ⟨l', hl', heq2⟩ := fold_plain_after_strike c2 cs2 hs2.2 _ hd'
          rw [show encodeSeg ⟨none, c2 :: cs2⟩ = c2 :: cs2 from rfl, heq2]
          rw [ih rest2 hlen2 hwfrest2 _ l' hl']
          simp [renderSeg, openTag, closeTag, List.append_assoc]

/-- **C1.** Round-trip of the style marker codec: encoding a marker-free
plain text by inserting well-formed, non-overlapping, non-adjacent style
spans (with the bold/underline/strikethrough helpers) and decoding with
the HTML converter recovers the plain text character-for-character modulo
the fixed escaping map (`ch_map` plus the bold font-substitution
reversal), with matching open/close tags around each span and the whole
result wrapped in a `<pre>` block. -/
theorem codec_round_trip (L : List Seg) (hwf : WFSegs L) :
    convert_to_html (encodeSegs L) =
      "<pre>".toList ++ (L.map renderSeg).flatten ++ "</pre>".toList := by
  have h := fold_segs L.length L le_rfl hwf "<pre>".toList none trivial
  show closeAll ((encodeSegs L).foldl htmlStep
      ⟨"<pre>".toList, false, false, false, none⟩) ++ "</pre>".toList = _
  rw [h]

/-- Witness for C1 at a concrete well-formed segment list exercising all
three styles, the escaping map, and the bold font substitution. -/
theorem codec_round_trip_witness :
    convert_to_html (encodeSegs
        [⟨none, "a".toList⟩, ⟨some .bold, "Hi".toList⟩, ⟨none, "<\n".toList⟩,
          ⟨some .underline, "x".toList⟩, ⟨none, " ".toList⟩,
          ⟨some .strike, "y7".toList⟩]) =
      "<pre>".toList ++
        (([⟨none, "a".toList⟩, ⟨some .bold, "Hi".toList⟩, ⟨none, "<\n".toList⟩,
          ⟨some .underline, "x".toList⟩, ⟨none, " ".toList⟩,
          ⟨some .strike, "y7".toList⟩] : List Seg).map renderSeg).flatten ++
        "</pre>".toList :=
  codec_round_trip _ ⟨by decide, by simp [List.chain'_cons]⟩

end HelpfulTests

